import Mathlib

/-!
Verification of the mod-settings binary codec in `src/core/settings.rs`
(with the variant encoder in `src/sanitize/.settings.rs`), via a shallow
embedding: byte streams are `List Nat` (each element a byte value 0..255),
Rust `io::Result` becomes `Except PError`, machine integers are `Nat`
bit patterns reduced modulo `2^w` where the code casts, and `HashMap` is
an association list whose order stands for the map's iteration order.
A Rust `panic!` is modelled as the distinguished outcome
`PError.panicInvalidTag`, kept separate from the `io::Error` outcomes
`PError.eof` (kind `UnexpectedEof`) and `PError.invalidData`
(kind `InvalidData`).  Recursion in `load_ptree` is bounded by an explicit
fuel parameter; every theorem supplies enough fuel (`load_root` uses the
stream length, which always suffices because each recursive call consumes
at least one byte first).
-/

namespace Belt

/-- Little-endian byte decomposition, width `w`: models Rust `to_le_bytes`
of a `w`-byte integer (the `% 256` steps make the `as u32`-style
truncation in the source explicit). -/
def leBytes : Nat → Nat → List Nat
  | 0, _ => []
  | w+1, n => n % 256 :: leBytes w (n / 256)

/-- Little-endian recomposition: models Rust `from_le_bytes`. -/
def fromLE : List Nat → Nat
  | [] => 0
  | b :: bs => b + 256 * fromLE bs

/-- Outcomes of the fallible byte-level operations.  `eof` models
`io::ErrorKind::UnexpectedEof` (from `read_exact` running out of input),
`invalidData` models `io::ErrorKind::InvalidData` (UTF-8 failure, missing
dictionary key, and the `ModSettings` shape errors), and
`panicInvalidTag v` models the `panic!("Invalid PropertyTreeType: {v}")`
in `impl From<u8> for PropertyTreeType` — a Rust panic, not a returned
`io::Error`.  `outOfFuel` is an artefact of the explicit recursion bound
and is never produced when enough fuel is supplied. -/
inductive PError where
  | eof
  | invalidData
  | panicInvalidTag (value : Nat)
  | outOfFuel
deriving DecidableEq, Repr

abbrev M (α : Type) := Except PError α

/-- Models `BufferStream::read_u8`. -/
def read_u8 : List Nat → M (Nat × List Nat)
  | [] => .error .eof
  | b :: r => .ok (b, r)

/-- Models `Read::read_exact` into a `w`-byte buffer over a byte slice:
returns the first `w` bytes and the rest, or `UnexpectedEof`. -/
def readExact (w : Nat) (b : List Nat) : M (List Nat × List Nat) :=
  if w ≤ b.length then .ok (b.take w, b.drop w) else .error .eof

/-- Models `BufferStream::read_u32_le`. -/
def read_u32_le (b : List Nat) : M (Nat × List Nat) :=
  match readExact 4 b with
  | .error e => .error e
  | .ok (bs, r) => .ok (fromLE bs, r)

/-- Models `BufferStream::read_i64_le`; the returned `Nat` is the
two's-complement bit pattern of the `i64`. -/
def read_i64_le (b : List Nat) : M (Nat × List Nat) :=
  match readExact 8 b with
  | .error e => .error e
  | .ok (bs, r) => .ok (fromLE bs, r)

/-- Models `BufferStream::read_u64_le`. -/
def read_u64_le (b : List Nat) : M (Nat × List Nat) :=
  match readExact 8 b with
  | .error e => .error e
  | .ok (bs, r) => .ok (fromLE bs, r)

/-- Models `BufferStream::read_f64_le`; the returned `Nat` is the IEEE-754
bit pattern of the `f64`, which is exactly what `from_le_bytes` carries. -/
def read_f64_le (b : List Nat) : M (Nat × List Nat) :=
  match readExact 8 b with
  | .error e => .error e
  | .ok (bs, r) => .ok (fromLE bs, r)

/-- Models `BufferStream::read_packed_uint_8_32`. -/
def read_packed_uint_8_32 (b : List Nat) : M (Nat × List Nat) :=
  match read_u8 b with
  | .error e => .error e
  | .ok (first, r) => if first < 255 then .ok (first, r) else read_u32_le r

/-- Helper for `isValidUtf8`: a UTF-8 continuation byte `0x80..=0xBF`. -/
def isCont (b : Nat) : Bool := decide (0x80 ≤ b ∧ b ≤ 0xBF)

/-- UTF-8 validity of a byte sequence, as checked by Rust
`String::from_utf8` (core's `run_utf8_validation`): ASCII, two- to
four-byte sequences with the overlong, surrogate and out-of-range
second-byte restrictions. -/
def isValidUtf8 : List Nat → Bool
  | [] => true
  | b :: rest =>
    if b ≤ 0x7F then isValidUtf8 rest
    else if 0xC2 ≤ b ∧ b ≤ 0xDF then
      match rest with
      | c1 :: r => isCont c1 && isValidUtf8 r
      | _ => false
    else if b = 0xE0 then
      match rest with
      | c1 :: c2 :: r => decide (0xA0 ≤ c1 ∧ c1 ≤ 0xBF) && isCont c2 && isValidUtf8 r
      | _ => false
    else if (0xE1 ≤ b ∧ b ≤ 0xEC) ∨ (0xEE ≤ b ∧ b ≤ 0xEF) then
      match rest with
      | c1 :: c2 :: r => isCont c1 && isCont c2 && isValidUtf8 r
      | _ => false
    else if b = 0xED then
      match rest with
      | c1 :: c2 :: r => decide (0x80 ≤ c1 ∧ c1 ≤ 0x9F) && isCont c2 && isValidUtf8 r
      | _ => false
    else if b = 0xF0 then
      match rest with
      | c1 :: c2 :: c3 :: r =>
        decide (0x90 ≤ c1 ∧ c1 ≤ 0xBF) && isCont c2 && isCont c3 && isValidUtf8 r
      | _ => false
    else if 0xF1 ≤ b ∧ b ≤ 0xF3 then
      match rest with
      | c1 :: c2 :: c3 :: r => isCont c1 && isCont c2 && isCont c3 && isValidUtf8 r
      | _ => false
    else if b = 0xF4 then
      match rest with
      | c1 :: c2 :: c3 :: r =>
        decide (0x80 ≤ c1 ∧ c1 ≤ 0x8F) && isCont c2 && isCont c3 && isValidUtf8 r
      | _ => false
    else false

/-- Models `BufferStream::read_string`: read `size` bytes and validate
them as UTF-8 (`String::from_utf8`); a Rust `String` is represented by
its UTF-8 byte sequence. -/
def read_string (size : Nat) (b : List Nat) : M (List Nat × List Nat) :=
  match readExact size b with
  | .error e => .error e
  | .ok (buf, r) => if isValidUtf8 buf then .ok (buf, r) else .error .invalidData

/-- Models the free function `read_ptree_string`. -/
def read_ptree_string (b : List Nat) : M (List Nat × List Nat) :=
  match read_u8 b with
  | .error e => .error e
  | .ok (empty, r) =>
    if empty != 0 then .ok ([], r)
    else
      match read_packed_uint_8_32 r with
      | .error e => .error e
      | .ok (size, r2) => read_string size r2

/-- Models the enum `PropertyTreeData`: `Number` holds the `f64` bit
pattern, `SignedInteger` the two's-complement bit pattern of the `i64`,
`UnsignedInteger` the `u64` value, `String` strings as UTF-8 bytes, and
`Dictionary` the `HashMap` as an association list in iteration order. -/
inductive PTree where
  | nil
  | bool (v : Bool)
  | num (bits : Nat)
  | str (s : List Nat)
  | list (vs : List PTree)
  | dict (es : List (List Nat × PTree))
  | int (bits : Nat)
  | uint (v : Nat)

/-- Models the enum `PropertyTreeType`. -/
inductive PropertyTreeType where
  | none
  | bool
  | number
  | string
  | list
  | dictionary
  | signedInteger
  | unsignedInteger
deriving DecidableEq, Repr

/-- The `#[repr(u8)]` discriminant of each `PropertyTreeType` variant. -/
def PropertyTreeType.tag : PropertyTreeType → Nat
  | .none => 0
  | .bool => 1
  | .number => 2
  | .string => 3
  | .list => 4
  | .dictionary => 5
  | .signedInteger => 6
  | .unsignedInteger => 7

/-- Models `impl From<u8> for PropertyTreeType`: the source `panic!`s on
values outside `0..=7`; the panic is modelled as `Option.none` here and
turned into `PError.panicInvalidTag` by the caller `load_ptree`. -/
def propertyTreeTypeFromU8 (value : Nat) : Option PropertyTreeType :=
  match value with
  | 0 => some .none
  | 1 => some .bool
  | 2 => some .number
  | 3 => some .string
  | 4 => some .list
  | 5 => some .dictionary
  | 6 => some .signedInteger
  | 7 => some .unsignedInteger
  | _ => Option.none

/-- Association-list model of `HashMap` lookup (`get`): first match. -/
def hmGet {ν : Type} (k : List Nat) : List (List Nat × ν) → Option ν
  | [] => Option.none
  | (k0, v0) :: rest => if k0 = k then some v0 else hmGet k rest

/-- Association-list model of `HashMap::insert`: replaces the entry in
place if the key is present (returning the old value), appends otherwise
(returning `none`). -/
def hmInsert {ν : Type} (k : List Nat) (v : ν) :
    List (List Nat × ν) → Option ν × List (List Nat × ν)
  | [] => (Option.none, [(k, v)])
  | (k0, v0) :: rest =>
    if k0 = k then (some v0, (k, v) :: rest)
    else ((hmInsert k v rest).1, (k0, v0) :: (hmInsert k v rest).2)

/-- Association-list model of `HashMap::remove`: removes the entry for
the key (returning its value), leaves the list unchanged otherwise. -/
def hmRemove {ν : Type} (k : List Nat) :
    List (List Nat × ν) → Option ν × List (List Nat × ν)
  | [] => (Option.none, [])
  | (k0, v0) :: rest =>
    if k0 = k then (some v0, rest)
    else ((hmRemove k rest).1, (k0, v0) :: (hmRemove k rest).2)

/-- The `HashMap` representation invariant: keys are pairwise distinct. -/
def nodupKeys {ν : Type} (m : List (List Nat × ν)) : Prop :=
  (m.map Prod.fst).Nodup

/-- Reads `count` list items: models the `for _ in 0..count` loop of the
`List` arm of `load_ptree` (key string discarded).  The `load` argument
is the recursive call at the enclosing fuel. -/
def loadListItems (load : List Nat → M (PTree × List Nat)) :
    Nat → List Nat → M (List PTree × List Nat)
  | 0, b => .ok ([], b)
  | count+1, b =>
    match read_ptree_string b with
    | .error e => .error e
    | .ok (_key, b1) =>
      match load b1 with
      | .error e => .error e
      | .ok (value, b2) =>
        match loadListItems load count b2 with
        | .error e => .error e
        | .ok (arr, b3) => .ok (value :: arr, b3)

/-- Reads `count` dictionary entries into the accumulated map: models the
`for _ in 0..count` loop of the `Dictionary` arm of `load_ptree`,
including the empty-key `InvalidData` error and the `dict.insert`. -/
def loadDictEntries (load : List Nat → M (PTree × List Nat)) :
    Nat → List Nat → List (List Nat × PTree) →
    M (List (List Nat × PTree) × List Nat)
  | 0, b, dict => .ok (dict, b)
  | count+1, b, dict =>
    match read_ptree_string b with
    | .error e => .error e
    | .ok (key, b1) =>
      if key = [] then .error .invalidData
      else
        match load b1 with
        | .error e => .error e
        | .ok (value, b2) => loadDictEntries load count b2 (hmInsert key value dict).2

/-- Models the free function `load_ptree`.  The first argument bounds the
recursion depth (the Rust recursion needs no such bound because every
recursive call consumes input first; all theorems supply ample fuel via
`load_root`). -/
def load_ptree : Nat → List Nat → M (PTree × List Nat)
  | 0, _ => .error .outOfFuel
  | fuel+1, b =>
    match read_u8 b with
    | .error e => .error e
    | .ok (type_val, b1) =>
      match read_u8 b1 with
      | .error e => .error e
      | .ok (_is_any_type, b2) =>
        match propertyTreeTypeFromU8 type_val with
        | Option.none => .error (.panicInvalidTag type_val)
        | Option.some tree_type =>
          match tree_type with
          | .none => .ok (.nil, b2)
          | .bool =>
            match read_u8 b2 with
            | .error e => .error e
            | .ok (value, b3) => .ok (.bool (value != 0), b3)
          | .number =>
            match read_f64_le b2 with
            | .error e => .error e
            | .ok (value, b3) => .ok (.num value, b3)
          | .string =>
            match read_ptree_string b2 with
            | .error e => .error e
            | .ok (value, b3) => .ok (.str value, b3)
          | .list =>
            match read_u32_le b2 with
            | .error e => .error e
            | .ok (count, b3) =>
              match loadListItems (load_ptree fuel) count b3 with
              | .error e => .error e
              | .ok (arr, b4) => .ok (.list arr, b4)
          | .dictionary =>
            match read_u32_le b2 with
            | .error e => .error e
            | .ok (count, b3) =>
              match loadDictEntries (load_ptree fuel) count b3 [] with
              | .error e => .error e
              | .ok (dict, b4) => .ok (.dict dict, b4)
          | .signedInteger =>
            match read_i64_le b2 with
            | .error e => .error e
            | .ok (value, b3) => .ok (.int value, b3)
          | .unsignedInteger =>
            match read_u64_le b2 with
            | .error e => .error e
            | .ok (value, b3) => .ok (.uint value, b3)

/-- Entry point for decoding one `PropertyTree` from a byte stream: the
stream length plus one always bounds the recursion depth, because each
recursive `load_ptree` call consumes at least one byte first. -/
def load_root (b : List Nat) : M (PTree × List Nat) :=
  load_ptree (b.length + 1) b

/-- Models the free function `save_string` of `core/settings.rs`. -/
def save_string (s : List Nat) : List Nat :=
  if s = [] then [1]
  else if s.length < 255 then 0 :: s.length :: s
  else 0 :: 255 :: (leBytes 4 s.length ++ s)

/-- The packed-length writer inlined in `save_string` (the spec's
`write_packed_uint_8_32`): raw byte below 255, else a 255 sentinel
followed by the 4-byte little-endian value. -/
def write_packed_uint_8_32 (n : Nat) : List Nat :=
  if n < 255 then [n] else 255 :: leBytes 4 n

/-- Models the free function `type_tag`. -/
def type_tag (tree_type : PropertyTreeType) : List Nat := [tree_type.tag, 0]

mutual
/-- Models the free function `save_ptree` of `core/settings.rs`. -/
def save_ptree : PTree → List Nat
  | .str value => type_tag .string ++ save_string value
  | .bool value => type_tag .bool ++ [if value then 1 else 0]
  | .num value => type_tag .number ++ leBytes 8 value
  | .int value => type_tag .signedInteger ++ leBytes 8 value
  | .uint value => type_tag .unsignedInteger ++ leBytes 8 value
  | .nil => type_tag .none
  | .list values => type_tag .list ++ (leBytes 4 values.length ++ saveListItems values)
  | .dict dict => type_tag .dictionary ++ (leBytes 4 dict.length ++ saveDictEntries dict)

/-- The `for value in values` loop of the `List` arm of `save_ptree`:
an empty key string before each item. -/
def saveListItems : List PTree → List Nat
  | [] => []
  | value :: rest => save_string [] ++ save_ptree value ++ saveListItems rest

/-- The `for (key, value) in dict` loop of the `Dictionary` arm of
`save_ptree`. -/
def saveDictEntries : List (List Nat × PTree) → List Nat
  | [] => []
  | (key, value) :: rest => save_string key ++ save_ptree value ++ saveDictEntries rest
end

/-- Models `save_ptree_string` of `sanitize/.settings.rs`: a bare packed
length followed by the bytes — no empty-string flag byte. -/
def sanitize_save_ptree_string (s : List Nat) : List Nat :=
  if s.length < 255 then s.length :: s else 255 :: (leBytes 4 s.length ++ s)

mutual
/-- Models `save_ptree` of `sanitize/.settings.rs` (writer calls flattened
into the emitted byte sequence).  Its `Dictionary` arm writes an extra
`0x00` byte between the entry count and the entries. -/
def sanitize_save_ptree : PTree → List Nat
  | .nil => [0, 0]
  | .bool v => [1, 0, if v then 1 else 0]
  | .num v => 2 :: 0 :: leBytes 8 v
  | .str v => 3 :: 0 :: sanitize_save_ptree_string v
  | .list arr => 4 :: 0 :: (leBytes 4 arr.length ++ sanitizeSaveListItems arr)
  | .dict dict => 5 :: 0 :: (leBytes 4 dict.length ++ 0 :: sanitizeSaveDictEntries dict)
  | .int v => 6 :: 0 :: leBytes 8 v
  | .uint v => 7 :: 0 :: leBytes 8 v

/-- List-items loop of the sanitize-variant `save_ptree`. -/
def sanitizeSaveListItems : List PTree → List Nat
  | [] => []
  | item :: rest =>
    sanitize_save_ptree_string [] ++ sanitize_save_ptree item ++ sanitizeSaveListItems rest

/-- Dictionary-entries loop of the sanitize-variant `save_ptree`. -/
def sanitizeSaveDictEntries : List (List Nat × PTree) → List Nat
  | [] => []
  | (key, value) :: rest =>
    sanitize_save_ptree_string key ++ sanitize_save_ptree value ++ sanitizeSaveDictEntries rest
end

/-- UTF-8 bytes of the on-disk scope key `"startup"`. -/
def startupKey : List Nat := [115, 116, 97, 114, 116, 117, 112]

/-- UTF-8 bytes of the on-disk scope key `"runtime-global"`. -/
def runtimeGlobalKey : List Nat :=
  [114, 117, 110, 116, 105, 109, 101, 45, 103, 108, 111, 98, 97, 108]

/-- UTF-8 bytes of the on-disk scope key `"runtime-per-user"`. -/
def runtimePerUserKey : List Nat :=
  [114, 117, 110, 116, 105, 109, 101, 45, 112, 101, 114, 45, 117, 115, 101, 114]

/-- UTF-8 bytes of the wrapper key `"value"`. -/
def valueKey : List Nat := [118, 97, 108, 117, 101]

/-- UTF-8 bytes of the color field names `"r"`, `"g"`, `"b"`, `"a"`. -/
def rKey : List Nat := [114]

/-- See `rKey`. -/
def gKey : List Nat := [103]

/-- See `rKey`. -/
def bKey : List Nat := [98]

/-- See `rKey`. -/
def aKey : List Nat := [97]

/-- Models the enum `ModSettingsScopeName`. -/
inductive ModSettingsScopeName where
  | startup
  | runtimeGlobal
  | runtimePerUser
deriving DecidableEq, Repr

/-- Models `ModSettingsScopeName::as_str` (as UTF-8 bytes). -/
def ModSettingsScopeName.as_str : ModSettingsScopeName → List Nat
  | .startup => startupKey
  | .runtimeGlobal => runtimeGlobalKey
  | .runtimePerUser => runtimePerUserKey

/-- Models the enum `ModSettingsValue`; `number` and the four `color`
fields carry `f64` bit patterns, `int` the `i64` bit pattern. -/
inductive ModSettingsValue where
  | string (s : List Nat)
  | number (bits : Nat)
  | int (bits : Nat)
  | bool (b : Bool)
  | color (r g b a : Nat)
deriving DecidableEq, Repr

/-- Models `type ModSettingsScope = HashMap<String, ModSettingsValue>`. -/
abbrev ModSettingsScope := List (List Nat × ModSettingsValue)

/-- Models the struct `ModSettingsData`. -/
structure ModSettingsData where
  startup : ModSettingsScope
  runtime_global : ModSettingsScope
  runtime_per_user : ModSettingsScope
deriving DecidableEq, Repr

/-- Models `ModSettingsData::scope_ref` (and the read side of
`scope_mut`). -/
def ModSettingsData.scope_ref (d : ModSettingsData) :
    ModSettingsScopeName → ModSettingsScope
  | .startup => d.startup
  | .runtimeGlobal => d.runtime_global
  | .runtimePerUser => d.runtime_per_user

/-- The write side of `ModSettingsData::scope_mut`: replace the selected
scope's map. -/
def ModSettingsData.scope_set (d : ModSettingsData) :
    ModSettingsScopeName → ModSettingsScope → ModSettingsData
  | .startup, m => { d with startup := m }
  | .runtimeGlobal, m => { d with runtime_global := m }
  | .runtimePerUser, m => { d with runtime_per_user := m }

/-- Models the struct `ModSettings` (the `MapVersion` is its 9 raw
bytes). -/
structure ModSettings where
  version : List Nat
  settings : ModSettingsData
deriving DecidableEq, Repr

/-- Models the `get_num` closure inside `ModSettings::from_reader`. -/
def get_num (d : List (List Nat × PTree)) (name : List Nat) : M Nat :=
  match hmGet name d with
  | some (.num v) => .ok v
  | _ => .error .invalidData

/-- Models the `parsed` match inside `ModSettings::from_reader`: narrows
one inner `PropertyTree` value to a `ModSettingsValue`. -/
def parseElement (element : PTree) : M ModSettingsValue :=
  match element with
  | .str s => .ok (.string s)
  | .num n => .ok (.number n)
  | .int i => .ok (.int i)
  | .bool b => .ok (.bool b)
  | .dict d =>
    match get_num d rKey with
    | .error e => .error e
    | .ok r =>
      match get_num d gKey with
      | .error e => .error e
      | .ok g =>
        match get_num d bKey with
        | .error e => .error e
        | .ok b =>
          match get_num d aKey with
          | .error e => .error e
          | .ok a => .ok (.color r g b a)
  | _ => .error .invalidData

/-- Models the `for (key, wrapper) in scope_dict` loop of
`ModSettings::from_reader`: each wrapper must be a dictionary holding the
key `"value"`; anything else is `InvalidData`. -/
def parseScopeEntries :
    List (List Nat × PTree) → ModSettingsScope → M ModSettingsScope
  | [], loadingscope => .ok loadingscope
  | (key, wrapper) :: rest, loadingscope =>
    match wrapper with
    | .dict wrapper_dict =>
      match hmGet valueKey wrapper_dict with
      | Option.none => .error .invalidData
      | Option.some element =>
        match parseElement element with
        | .error e => .error e
        | .ok parsed => parseScopeEntries rest (hmInsert key parsed loadingscope).2
    | _ => .error .invalidData

/-- One iteration of the `for scopename in ModSettingsScopeName::ALL`
loop of `ModSettings::from_reader`: the scope entry must exist in the
root and be a dictionary. -/
def parseScope (root : List (List Nat × PTree)) (name : List Nat) :
    M ModSettingsScope :=
  match hmGet name root with
  | Option.none => .error .invalidData
  | Option.some (.dict scope_dict) => parseScopeEntries scope_dict []
  | Option.some _ => .error .invalidData

/-- The scope-extraction phase of `ModSettings::from_reader`, over the
decoded root dictionary, scopes in `ModSettingsScopeName::ALL` order. -/
def parseRoot (root : List (List Nat × PTree)) : M ModSettingsData :=
  match parseScope root startupKey with
  | .error e => .error e
  | .ok su =>
    match parseScope root runtimeGlobalKey with
    | .error e => .error e
    | .ok rg =>
      match parseScope root runtimePerUserKey with
      | .error e => .error e
      | .ok rp => .ok ⟨su, rg, rp⟩

/-- Models `ModSettings::from_reader`: 9-byte `MapVersion`, then the
decoded tree (which must be a dictionary), then the three scopes. -/
def ModSettings.from_reader (r : List Nat) : M ModSettings :=
  match readExact 9 r with
  | .error e => .error e
  | .ok (version, b1) =>
    match load_root b1 with
    | .error e => .error e
    | .ok (tree, _) =>
      match tree with
      | .dict root =>
        match parseRoot root with
        | .error e => .error e
        | .ok settings => .ok ⟨version, settings⟩
      | _ => .error .invalidData

/-- Models `ModSettings::set`: a single upsert/delete primitive over the
selected scope, returning the previous/removed value.  The Rust method
mutates in place and returns an `Option`; the model returns both. -/
def ModSettings.set (self : ModSettings) (scope : ModSettingsScopeName)
    (key : List Nat) (value : Option ModSettingsValue) :
    Option ModSettingsValue × ModSettings :=
  let scope_map := self.settings.scope_ref scope
  match value with
  | some v =>
    let r := hmInsert key v scope_map
    (r.1, { self with settings := self.settings.scope_set scope r.2 })
  | Option.none =>
    let r := hmRemove key scope_map
    (r.1, { self with settings := self.settings.scope_set scope r.2 })

/-- Models the per-value conversion inside `ModSettings::to_ptree`,
including the `{r,g,b,a}` color dictionary built by four inserts. -/
def msvToPtree : ModSettingsValue → PTree
  | .string s => .str s
  | .number n => .num n
  | .int i => .int i
  | .bool b => .bool b
  | .color r g b a =>
    let cd := (hmInsert rKey (PTree.num r) []).2
    let cd := (hmInsert gKey (PTree.num g) cd).2
    let cd := (hmInsert bKey (PTree.num b) cd).2
    let cd := (hmInsert aKey (PTree.num a) cd).2
    .dict cd

/-- The `for (key, value) in scope_map.iter()` loop of
`ModSettings::to_ptree`: wraps each value as `{"value": data}`. -/
def scopeToPtree : ModSettingsScope → List (List Nat × PTree) → List (List Nat × PTree)
  | [], scope_pt => scope_pt
  | (key, value) :: rest, scope_pt =>
    let wrapper := (hmInsert valueKey (msvToPtree value) []).2
    scopeToPtree rest (hmInsert key (PTree.dict wrapper) scope_pt).2

/-- Models `ModSettings::to_ptree`: the three scopes under their fixed
keys, inserted in `ModSettingsScopeName::ALL` order into a fresh root. -/
def ModSettings.to_ptree (self : ModSettings) : PTree :=
  let root := (hmInsert startupKey
    (PTree.dict (scopeToPtree self.settings.startup [])) []).2
  let root := (hmInsert runtimeGlobalKey
    (PTree.dict (scopeToPtree self.settings.runtime_global [])) root).2
  let root := (hmInsert runtimePerUserKey
    (PTree.dict (scopeToPtree self.settings.runtime_per_user [])) root).2
  .dict root

/-- Models `ModSettings::save_bytes`: the 9 `MapVersion` bytes re-emitted
unchanged, then the encoded tree. -/
def ModSettings.save_bytes (self : ModSettings) : List Nat :=
  self.version ++ save_ptree self.to_ptree

/-- A sequence of `set` mutations applied in order (the "zero or more
`set` calls" between load and save). -/
def applySets :
    List (ModSettingsScopeName × List Nat × Option ModSettingsValue) →
    ModSettings → ModSettings
  | [], ms => ms
  | (s, k, v) :: ops, ms => applySets ops (ms.set s k v).2

/-- The invariant of a Rust `String` value as carried by the tree: its
bytes are valid UTF-8 (guaranteed by the `String` type) and its length
fits in a `u32` (needed because the codec writes lengths as `u32`). -/
def wfStr (s : List Nat) : Prop := isValidUtf8 s = true ∧ s.length < 2^32

mutual
/-- The representation invariants of a Rust `PropertyTreeData` value in
this embedding: numeric bit patterns fit their width, strings are Rust
strings, collection lengths fit in `u32`, dictionary keys are distinct
(`HashMap` invariant); plus the nonempty-dictionary-key condition the
decoder insists on. -/
def wfT : PTree → Prop
  | .nil => True
  | .bool _ => True
  | .num n => n < 2^64
  | .int n => n < 2^64
  | .uint n => n < 2^64
  | .str s => wfStr s
  | .list vs => vs.length < 2^32 ∧ wfL vs
  | .dict es => es.length < 2^32 ∧ (es.map Prod.fst).Nodup ∧ wfE es

/-- `wfT` on every element of a list of children. -/
def wfL : List PTree → Prop
  | [] => True
  | v :: vs => wfT v ∧ wfL vs

/-- Key and value invariants on every dictionary entry. -/
def wfE : List (List Nat × PTree) → Prop
  | [] => True
  | (k, v) :: es => (k ≠ [] ∧ wfStr k ∧ wfT v) ∧ wfE es
end

/-- Structural induction principle for the nested inductive `PTree`,
giving the hypothesis on every member of the children lists. -/
def PTree.indOn (motive : PTree → Prop)
    (hnil : motive .nil)
    (hbool : ∀ v, motive (.bool v))
    (hnum : ∀ n, motive (.num n))
    (hstr : ∀ s, motive (.str s))
    (hlist : ∀ vs, (∀ v ∈ vs, motive v) → motive (.list vs))
    (hdict : ∀ es, (∀ e ∈ es, motive e.2) → motive (.dict es))
    (hint : ∀ n, motive (.int n))
    (huint : ∀ n, motive (.uint n)) : ∀ t, motive t
  | .nil => hnil
  | .bool v => hbool v
  | .num n => hnum n
  | .str s => hstr s
  | .list vs => hlist vs (fun v hv =>
      PTree.indOn motive hnil hbool hnum hstr hlist hdict hint huint v)
  | .dict es => hdict es (fun e he =>
      PTree.indOn motive hnil hbool hnum hstr hlist hdict hint huint e.2)
  | .int n => hint n
  | .uint n => huint n
termination_by t => sizeOf t
decreasing_by
  · have h1 := List.sizeOf_lt_of_mem hv
    simp only [PTree.list.sizeOf_spec]
    omega
  · have h1 := List.sizeOf_lt_of_mem he
    have h2 : sizeOf e.2 < sizeOf e := by
      obtain ⟨k, v⟩ := e
      simp only [Prod.mk.sizeOf_spec]
      omega
    simp only [PTree.dict.sizeOf_spec]
    omega

/-- A tiny concrete `ModSettings` state used by witnesses: one setting
`"k"` (byte 107) in the startup scope. -/
def wMS : ModSettings :=
  ⟨[0, 0, 0, 0, 0, 0, 0, 0, 0], ⟨[([107], ModSettingsValue.bool true)], [], []⟩⟩

/-- A concrete well-formed settings file used by witnesses: 9 version
bytes followed by a root dictionary holding the three scopes, all empty. -/
def wFile : List Nat :=
  [0, 1, 2, 3, 4, 5, 6, 7, 8] ++
  ([5, 0] ++ [3, 0, 0, 0] ++ (0 :: 7 :: startupKey) ++ [5, 0, 0, 0, 0, 0] ++
   (0 :: 14 :: runtimeGlobalKey) ++ [5, 0, 0, 0, 0, 0] ++
   (0 :: 16 :: runtimePerUserKey) ++ [5, 0, 0, 0, 0, 0])

/-- The `ModSettings` value `wFile` decodes to. -/
def wFileMS : ModSettings := ⟨[0, 1, 2, 3, 4, 5, 6, 7, 8], ⟨[], [], []⟩⟩

/-- A concrete root dictionary holding exactly the three scope entries. -/
def wCleanRoot : List (List Nat × PTree) :=
  [(startupKey, .dict []), (runtimeGlobalKey, .dict []), (runtimePerUserKey, .dict [])]

theorem leBytes_length (w : Nat) : ∀ n, (leBytes w n).length = w := by
  induction w with
  | zero => intro n; rfl
  | succ w ih => intro n; simp [leBytes, ih]

theorem fromLE_leBytes : ∀ (w n : Nat), n < 256^w → fromLE (leBytes w n) = n := by
  intro w
  induction w with
  | zero =>
    intro n h
    simp only [pow_zero, Nat.lt_one_iff] at h
    simp [h, leBytes, fromLE]
  | succ w ih =>
    intro n h
    have hd : n / 256 < 256^w := by
      rw [Nat.div_lt_iff_lt_mul (by norm_num : (0:Nat) < 256)]
      calc n < 256^(w+1) := h
        _ = 256^w * 256 := by ring
    simp only [leBytes, fromLE, ih (n / 256) hd]
    omega

theorem readExact_pre {w : Nat} (l r : List Nat) (h : l.length = w) :
    readExact w (l ++ r) = .ok (l, r) := by
  unfold readExact
  rw [if_pos (by simp [← h])]
  rw [List.take_left' h, List.drop_left' h]

theorem read_u32_le_leBytes (n : Nat) (r : List Nat) (h : n < 2^32) :
    read_u32_le (leBytes 4 n ++ r) = .ok (n, r) := by
  unfold read_u32_le
  rw [readExact_pre _ r (leBytes_length 4 n)]
  dsimp only
  rw [fromLE_leBytes 4 n (by norm_num at h ⊢; omega)]

theorem read_u64_le_leBytes (n : Nat) (r : List Nat) (h : n < 2^64) :
    read_u64_le (leBytes 8 n ++ r) = .ok (n, r) := by
  unfold read_u64_le
  rw [readExact_pre _ r (leBytes_length 8 n)]
  dsimp only
  rw [fromLE_leBytes 8 n (by norm_num at h ⊢; omega)]

theorem read_i64_le_leBytes (n : Nat) (r : List Nat) (h : n < 2^64) :
    read_i64_le (leBytes 8 n ++ r) = .ok (n, r) :=
  read_u64_le_leBytes n r h

theorem read_f64_le_leBytes (n : Nat) (r : List Nat) (h : n < 2^64) :
    read_f64_le (leBytes 8 n ++ r) = .ok (n, r) :=
  read_u64_le_leBytes n r h

theorem read_packed_roundtrip (n : Nat) (r : List Nat) (h : n < 2^32) :
    read_packed_uint_8_32 (write_packed_uint_8_32 n ++ r) = .ok (n, r) := by
  unfold write_packed_uint_8_32
  by_cases h255 : n < 255
  · rw [if_pos h255]
    simp [read_packed_uint_8_32, read_u8, if_pos h255]
  · rw [if_neg h255]
    simp only [List.cons_append]
    simp [read_packed_uint_8_32, read_u8, if_neg h255, read_u32_le_leBytes n r h]

theorem read_save_string (s : List Nat) (h : wfStr s) (r : List Nat) :
    read_ptree_string (save_string s ++ r) = .ok (s, r) := by
  obtain ⟨hv, hlen⟩ := h
  by_cases hs : s = []
  · subst hs
    simp [save_string, read_ptree_string, read_u8]
  · unfold save_string
    rw [if_neg hs]
    have hrs : read_string s.length (s ++ r) = .ok (s, r) := by
      unfold read_string
      rw [readExact_pre s r rfl]
      dsimp only
      rw [if_pos hv]
    by_cases h255 : s.length < 255
    · rw [if_pos h255]
      simp only [List.cons_append]
      unfold read_ptree_string
      simp only [read_u8]
      rw [if_neg (by simp)]
      unfold read_packed_uint_8_32
      simp only [read_u8]
      rw [if_pos h255]
      dsimp only
      rw [hrs]
    · rw [if_neg h255]
      simp only [List.cons_append, List.append_assoc]
      unfold read_ptree_string
      simp only [read_u8]
      rw [if_neg (by simp)]
      unfold read_packed_uint_8_32
      simp only [read_u8]
      rw [if_neg (by omega)]
      rw [read_u32_le_leBytes s.length (s ++ r) hlen]
      dsimp only
      rw [hrs]

theorem hmInsert_fst {ν : Type} (k : List Nat) (v : ν) :
    ∀ m, (hmInsert k v m).1 = hmGet k m := by
  intro m
  induction m with
  | nil => rfl
  | cons p rest ih =>
    obtain ⟨k0, v0⟩ := p
    by_cases h : k0 = k
    · simp [hmInsert, hmGet, h]
    · simp [hmInsert, hmGet, h, ih]

theorem hmGet_hmInsert_self {ν : Type} (k : List Nat) (v : ν) :
    ∀ m, hmGet k (hmInsert k v m).2 = some v := by
  intro m
  induction m with
  | nil => simp [hmInsert, hmGet]
  | cons p rest ih =>
    obtain ⟨k0, v0⟩ := p
    by_cases h : k0 = k
    · simp [hmInsert, hmGet, h]
    · simp [hmInsert, hmGet, h, ih]

theorem hmRemove_fst {ν : Type} (k : List Nat) :
    ∀ m : List (List Nat × ν), (hmRemove k m).1 = hmGet k m := by
  intro m
  induction m with
  | nil => rfl
  | cons p rest ih =>
    obtain ⟨k0, v0⟩ := p
    by_cases h : k0 = k
    · simp [hmRemove, hmGet, h]
    · simp [hmRemove, hmGet, h, ih]

theorem hmGet_not_mem {ν : Type} {k : List Nat} :
    ∀ {m : List (List Nat × ν)}, k ∉ m.map Prod.fst → hmGet k m = Option.none := by
  intro m
  induction m with
  | nil => intro _; rfl
  | cons p rest ih =>
    obtain ⟨k0, v0⟩ := p
    intro h
    simp only [List.map_cons, List.mem_cons] at h
    push_neg at h
    simp only [hmGet]
    rw [if_neg (fun hh => h.1 hh.symm)]
    exact ih h.2

theorem hmGet_hmRemove_self {ν : Type} (k : List Nat) :
    ∀ m : List (List Nat × ν), nodupKeys m → hmGet k (hmRemove k m).2 = Option.none := by
  intro m
  induction m with
  | nil => intro _; rfl
  | cons p rest ih =>
    obtain ⟨k0, v0⟩ := p
    intro hnd
    simp only [nodupKeys, List.map_cons, List.nodup_cons] at hnd
    by_cases h : k0 = k
    · subst h
      simp only [hmRemove, if_pos rfl]
      exact hmGet_not_mem hnd.1
    · simp [hmRemove, h, hmGet, ih hnd.2]

theorem hmRemove_no_key {ν : Type} (k : List Nat) :
    ∀ m : List (List Nat × ν), nodupKeys m →
    ∀ p ∈ (hmRemove k m).2, p.1 ≠ k := by
  intro m
  induction m with
  | nil => intro _ p hp; simp [hmRemove] at hp
  | cons q rest ih =>
    obtain ⟨k0, v0⟩ := q
    intro hnd p hp
    simp only [nodupKeys, List.map_cons, List.nodup_cons] at hnd
    by_cases h : k0 = k
    · subst h
      simp only [hmRemove, if_pos rfl] at hp
      intro hk
      exact hnd.1 (hk ▸ List.mem_map_of_mem Prod.fst hp)
    · simp only [hmRemove, if_neg h, List.mem_cons] at hp
      rcases hp with hp | hp
      · subst hp; exact h
      · exact ih hnd.2 p hp

theorem hmGet_hmRemove_other {ν : Type} (k k2 : List Nat) (h : k2 ≠ k) :
    ∀ m : List (List Nat × ν), hmGet k2 (hmRemove k m).2 = hmGet k2 m := by
  intro m
  induction m with
  | nil => rfl
  | cons p rest ih =>
    obtain ⟨k0, v0⟩ := p
    by_cases h0 : k0 = k
    · subst h0
      have h2 : hmGet k2 ((k0, v0) :: rest) = hmGet k2 rest := by
        simp only [hmGet]
        rw [if_neg (show ¬ k0 = k2 from fun hh => h hh.symm)]
      rw [h2]
      simp [hmRemove]
    · simp only [hmRemove, if_neg h0]
      simp only [hmGet, ih]

theorem hmInsert_not_mem {ν : Type} (k : List Nat) (v : ν) :
    ∀ m : List (List Nat × ν), k ∉ m.map Prod.fst →
    hmInsert k v m = (Option.none, m ++ [(k, v)]) := by
  intro m
  induction m with
  | nil => intro _; rfl
  | cons p rest ih =>
    obtain ⟨k0, v0⟩ := p
    intro h
    simp only [List.map_cons, List.mem_cons] at h
    push_neg at h
    have hne : k0 ≠ k := fun hh => h.1 hh.symm
    simp [hmInsert, hne, ih h.2]

theorem hmInsert_mem {ν : Type} {k : List Nat} {v : ν} :
    ∀ {m : List (List Nat × ν)} {p}, p ∈ (hmInsert k v m).2 → p ∈ m ∨ p = (k, v) := by
  intro m
  induction m with
  | nil => intro p hp; simp [hmInsert] at hp; exact Or.inr hp
  | cons q rest ih =>
    obtain ⟨k0, v0⟩ := q
    intro p hp
    by_cases h : k0 = k
    · simp only [hmInsert, if_pos h, List.mem_cons] at hp
      rcases hp with hp | hp
      · exact Or.inr hp
      · exact Or.inl (List.mem_cons_of_mem _ hp)
    · simp only [hmInsert, if_neg h, List.mem_cons] at hp
      rcases hp with hp | hp
      · exact Or.inl (hp ▸ List.mem_cons_self _ _)
      · rcases ih hp with h2 | h2
        · exact Or.inl (List.mem_cons_of_mem _ h2)
        · exact Or.inr h2

theorem wfL_iff : ∀ vs : List PTree, wfL vs ↔ ∀ v ∈ vs, wfT v := by
  intro vs
  induction vs with
  | nil => simp [wfL]
  | cons v rest ih => simp [wfL, ih]

theorem wfE_iff : ∀ es : List (List Nat × PTree),
    wfE es ↔ ∀ e ∈ es, e.1 ≠ [] ∧ wfStr e.1 ∧ wfT e.2 := by
  intro es
  induction es with
  | nil => simp [wfE]
  | cons e rest ih =>
    obtain ⟨k, v⟩ := e
    simp [wfE, ih]

theorem save_string_length_pos (s : List Nat) : 0 < (save_string s).length := by
  unfold save_string
  split
  · simp
  · split <;> simp

theorem mem_saveListItems_len {v : PTree} :
    ∀ {vs : List PTree}, v ∈ vs →
    (save_ptree v).length < (saveListItems vs).length := by
  intro vs
  induction vs with
  | nil => intro h; simp at h
  | cons u rest ih =>
    intro h
    have hlen : (saveListItems (u :: rest)).length =
        (save_string []).length + (save_ptree u).length + (saveListItems rest).length := by
      simp [saveListItems]
      omega
    have hpos := save_string_length_pos ([] : List Nat)
    rcases List.mem_cons.mp h with h | h
    · subst h; omega
    · have := ih h; omega

theorem mem_saveDictEntries_len {e : List Nat × PTree} :
    ∀ {es : List (List Nat × PTree)}, e ∈ es →
    (save_ptree e.2).length < (saveDictEntries es).length := by
  intro es
  induction es with
  | nil => intro h; simp at h
  | cons q rest ih =>
    obtain ⟨k0, v0⟩ := q
    intro h
    have hlen : (saveDictEntries ((k0, v0) :: rest)).length =
        (save_string k0).length + (save_ptree v0).length + (saveDictEntries rest).length := by
      simp [saveDictEntries]
      omega
    have hpos := save_string_length_pos k0
    rcases List.mem_cons.mp h with h | h
    · subst h; dsimp only; omega
    · have := ih h; omega

theorem save_ptree_list_len (vs : List PTree) :
    (save_ptree (.list vs)).length = 6 + (saveListItems vs).length := by
  simp [save_ptree, type_tag, PropertyTreeType.tag, leBytes_length]
  omega

theorem save_ptree_dict_len (es : List (List Nat × PTree)) :
    (save_ptree (.dict es)).length = 6 + (saveDictEntries es).length := by
  simp [save_ptree, type_tag, PropertyTreeType.tag, leBytes_length]
  omega

theorem loadListItems_ok (load : List Nat → M (PTree × List Nat)) :
    ∀ vs : List PTree,
    (∀ v ∈ vs, ∀ r2, load (save_ptree v ++ r2) = .ok (v, r2)) →
    ∀ rest, loadListItems load vs.length (saveListItems vs ++ rest) = .ok (vs, rest) := by
  intro vs
  induction vs with
  | nil => intro _ rest; simp [loadListItems, saveListItems]
  | cons v vs ih =>
    intro H rest
    have hkey := read_save_string [] ⟨rfl, by norm_num⟩
      (save_ptree v ++ (saveListItems vs ++ rest))
    simp only [saveListItems, List.append_assoc, List.length_cons]
    simp only [loadListItems, hkey, H v (List.mem_cons_self v vs),
      ih (fun u hu r2 => H u (List.mem_cons_of_mem v hu) r2)]

theorem loadDictEntries_ok (load : List Nat → M (PTree × List Nat)) :
    ∀ es : List (List Nat × PTree),
    (∀ e ∈ es, ∀ r2, load (save_ptree e.2 ++ r2) = .ok (e.2, r2)) →
    (∀ e ∈ es, e.1 ≠ [] ∧ wfStr e.1) →
    ∀ acc rest, (acc.map Prod.fst ++ es.map Prod.fst).Nodup →
    loadDictEntries load es.length (saveDictEntries es ++ rest) acc = .ok (acc ++ es, rest) := by
  intro es
  induction es with
  | nil => intro _ _ acc rest _; simp [loadDictEntries, saveDictEntries]
  | cons e es ih =>
    obtain ⟨k, v⟩ := e
    intro H hkeys acc rest hnd
    have hk := hkeys (k, v) (List.mem_cons_self _ _)
    have hkey := read_save_string k hk.2 (save_ptree v ++ (saveDictEntries es ++ rest))
    have hknotacc : k ∉ acc.map Prod.fst := by
      have hd := List.disjoint_of_nodup_append hnd
      intro hmem
      exact hd hmem (by simp)
    have hins : (hmInsert k v acc).2 = acc ++ [(k, v)] := by
      rw [hmInsert_not_mem k v acc hknotacc]
    have hnd2 : ((acc ++ [(k, v)]).map Prod.fst ++ es.map Prod.fst).Nodup := by
      simp only [List.map_append, List.map_cons, List.map_nil] at hnd ⊢
      simpa [List.append_assoc] using hnd
    have hrec := ih (fun u hu r2 => H u (List.mem_cons_of_mem _ hu) r2)
      (fun u hu => hkeys u (List.mem_cons_of_mem _ hu)) (acc ++ [(k, v)]) rest hnd2
    simp only [saveDictEntries, List.append_assoc, List.length_cons]
    simp only [loadDictEntries, hkey]
    rw [if_neg hk.1]
    simp only [H (k, v) (List.mem_cons_self _ _), hins, hrec]
    simp

theorem load_save_aux : ∀ t : PTree, ∀ fuel rest, wfT t →
    (save_ptree t).length < fuel →
    load_ptree fuel (save_ptree t ++ rest) = .ok (t, rest) := by
  intro t
  induction t using PTree.indOn with
  | hnil =>
    intro fuel rest _ hlen
    obtain ⟨f, rfl⟩ : ∃ f, fuel = f + 1 := ⟨fuel - 1, by omega⟩
    simp [save_ptree, type_tag, PropertyTreeType.tag, load_ptree, read_u8,
      propertyTreeTypeFromU8]
  | hbool v =>
    intro fuel rest _ hlen
    obtain ⟨f, rfl⟩ : ∃ f, fuel = f + 1 := ⟨fuel - 1, by omega⟩
    cases v <;>
      simp [save_ptree, type_tag, PropertyTreeType.tag, load_ptree, read_u8,
        propertyTreeTypeFromU8]
  | hnum n =>
    intro fuel rest hwf hlen
    obtain ⟨f, rfl⟩ : ∃ f, fuel = f + 1 := ⟨fuel - 1, by omega⟩
    simp only [wfT] at hwf
    simp [save_ptree, type_tag, PropertyTreeType.tag, load_ptree, read_u8,
      propertyTreeTypeFromU8, List.append_assoc, read_f64_le_leBytes n rest hwf]
  | hstr s =>
    intro fuel rest hwf hlen
    obtain ⟨f, rfl⟩ : ∃ f, fuel = f + 1 := ⟨fuel - 1, by omega⟩
    simp only [wfT] at hwf
    simp [save_ptree, type_tag, PropertyTreeType.tag, load_ptree, read_u8,
      propertyTreeTypeFromU8, List.append_assoc, read_save_string s hwf rest]
  | hint n =>
    intro fuel rest hwf hlen
    obtain ⟨f, rfl⟩ : ∃ f, fuel = f + 1 := ⟨fuel - 1, by omega⟩
    simp only [wfT] at hwf
    simp [save_ptree, type_tag, PropertyTreeType.tag, load_ptree, read_u8,
      propertyTreeTypeFromU8, List.append_assoc, read_i64_le_leBytes n rest hwf]
  | huint n =>
    intro fuel rest hwf hlen
    obtain ⟨f, rfl⟩ : ∃ f, fuel = f + 1 := ⟨fuel - 1, by omega⟩
    simp only [wfT] at hwf
    simp [save_ptree, type_tag, PropertyTreeType.tag, load_ptree, read_u8,
      propertyTreeTypeFromU8, List.append_assoc, read_u64_le_leBytes n rest hwf]
  | hlist vs ih =>
    intro fuel rest hwf hlen
    simp only [wfT] at hwf
    obtain ⟨hcount, hl⟩ := hwf
    rw [wfL_iff] at hl
    obtain ⟨f, rfl⟩ : ∃ f, fuel = f + 1 := ⟨fuel - 1, by omega⟩
    have hchild : ∀ v ∈ vs, ∀ r2, load_ptree f (save_ptree v ++ r2) = .ok (v, r2) := by
      intro v hv r2
      apply ih v hv f r2 (hl v hv)
      have h1 := mem_saveListItems_len hv
      have h2 := save_ptree_list_len vs
      omega
    have hloop := loadListItems_ok (load_ptree f) vs hchild rest
    simp [save_ptree, type_tag, PropertyTreeType.tag, load_ptree, read_u8,
      propertyTreeTypeFromU8, List.append_assoc,
      read_u32_le_leBytes vs.length (saveListItems vs ++ rest) hcount, hloop]
  | hdict es ih =>
    intro fuel rest hwf hlen
    simp only [wfT] at hwf
    obtain ⟨hcount, hnd, he⟩ := hwf
    rw [wfE_iff] at he
    obtain ⟨f, rfl⟩ : ∃ f, fuel = f + 1 := ⟨fuel - 1, by omega⟩
    have hchild : ∀ e ∈ es, ∀ r2, load_ptree f (save_ptree e.2 ++ r2) = .ok (e.2, r2) := by
      intro e hee r2
      apply ih e hee f r2 (he e hee).2.2
      have h1 := mem_saveDictEntries_len hee
      have h2 := save_ptree_dict_len es
      omega
    have hloop := loadDictEntries_ok (load_ptree f) es hchild
      (fun e hee => ⟨(he e hee).1, (he e hee).2.1⟩) [] rest (by simpa using hnd)
    simp only [List.nil_append] at hloop
    simp [save_ptree, type_tag, PropertyTreeType.tag, load_ptree, read_u8,
      propertyTreeTypeFromU8, List.append_assoc,
      read_u32_le_leBytes es.length (saveDictEntries es ++ rest) hcount, hloop]

theorem load_save (t : PTree) (rest : List Nat) (h : wfT t) :
    load_root (save_ptree t ++ rest) = .ok (t, rest) := by
  unfold load_root
  apply load_save_aux t _ rest h
  rw [List.length_append]
  omega

theorem scope_ref_set_same (d : ModSettingsData) (s : ModSettingsScopeName)
    (m : ModSettingsScope) : (d.scope_set s m).scope_ref s = m := by
  cases s <;> rfl

theorem scope_ref_set_other (d : ModSettingsData) (s s2 : ModSettingsScopeName)
    (m : ModSettingsScope) (h : s2 ≠ s) :
    (d.scope_set s m).scope_ref s2 = d.scope_ref s2 := by
  cases s <;> cases s2 <;> first | rfl | exact absurd rfl h

theorem set_version (ms : ModSettings) (s : ModSettingsScopeName) (k : List Nat)
    (v : Option ModSettingsValue) : ((ms.set s k v).2).version = ms.version := by
  cases v <;> rfl

theorem applySets_version
    (ops : List (ModSettingsScopeName × List Nat × Option ModSettingsValue)) :
    ∀ ms : ModSettings, (applySets ops ms).version = ms.version := by
  induction ops with
  | nil => intro ms; rfl
  | cons op ops ih =>
    obtain ⟨s, k, v⟩ := op
    intro ms
    rw [applySets, ih, set_version]

theorem set_some_scope (ms : ModSettings) (s : ModSettingsScopeName) (k : List Nat)
    (v : ModSettingsValue) :
    ((ms.set s k (some v)).2).settings.scope_ref s =
      (hmInsert k v (ms.settings.scope_ref s)).2 := by
  simp [ModSettings.set, scope_ref_set_same]

theorem set_none_scope (ms : ModSettings) (s : ModSettingsScopeName) (k : List Nat) :
    ((ms.set s k Option.none).2).settings.scope_ref s =
      (hmRemove k (ms.settings.scope_ref s)).2 := by
  simp [ModSettings.set, scope_ref_set_same]

theorem set_none_scope_other (ms : ModSettings) (s s2 : ModSettingsScopeName)
    (k : List Nat) (h : s2 ≠ s) :
    ((ms.set s k Option.none).2).settings.scope_ref s2 = ms.settings.scope_ref s2 := by
  simp [ModSettings.set, scope_ref_set_other _ _ _ _ h]

theorem from_reader_shape {b : List Nat} {ms : ModSettings}
    (h : ModSettings.from_reader b = .ok ms) :
    ms.version = b.take 9 ∧ 9 ≤ b.length := by
  unfold ModSettings.from_reader at h
  split at h
  · cases h
  · rename_i version b1 heq
    split at h
    · cases h
    · split at h
      · split at h
        · cases h
        · rename_i settings heq2
          cases h
          unfold readExact at heq
          split at heq
          · rename_i h9
            refine ⟨?_, h9⟩
            cases heq
            rfl
          · cases heq
      · cases h

theorem parseScope_congr {d1 d2 : List (List Nat × PTree)} (name : List Nat)
    (h : hmGet name d1 = hmGet name d2) : parseScope d1 name = parseScope d2 name := by
  unfold parseScope
  rw [h]

theorem parseRoot_congr {d1 d2 : List (List Nat × PTree)}
    (h1 : hmGet startupKey d1 = hmGet startupKey d2)
    (h2 : hmGet runtimeGlobalKey d1 = hmGet runtimeGlobalKey d2)
    (h3 : hmGet runtimePerUserKey d1 = hmGet runtimePerUserKey d2) :
    parseRoot d1 = parseRoot d2 := by
  unfold parseRoot
  rw [parseScope_congr startupKey h1, parseScope_congr runtimeGlobalKey h2,
    parseScope_congr runtimePerUserKey h3]

theorem parseScopeEntries_wrapper_congr (k : List Nat)
    (w1 w2 : List (List Nat × PTree)) (rest : List (List Nat × PTree))
    (acc : ModSettingsScope) (h : hmGet valueKey w1 = hmGet valueKey w2) :
    parseScopeEntries ((k, .dict w1) :: rest) acc =
      parseScopeEntries ((k, .dict w2) :: rest) acc := by
  simp only [parseScopeEntries]
  rw [h]

theorem scopeToPtree_wrapper :
    ∀ (entries : ModSettingsScope) (acc : List (List Nat × PTree)),
    (∀ p ∈ acc, ∃ w, p.2 = PTree.dict [(valueKey, w)]) →
    ∀ p ∈ scopeToPtree entries acc, ∃ w, p.2 = PTree.dict [(valueKey, w)] := by
  intro entries
  induction entries with
  | nil => intro acc hacc p hp; exact hacc p hp
  | cons e rest ih =>
    obtain ⟨k, v⟩ := e
    intro acc hacc p hp
    simp only [scopeToPtree] at hp
    apply ih _ ?_ p hp
    intro q hq
    rcases hmInsert_mem hq with hq2 | hq2
    · exact hacc q hq2
    · subst hq2; exact ⟨msvToPtree v, rfl⟩

theorem to_ptree_struct (ms : ModSettings) :
    ms.to_ptree = PTree.dict
      [(startupKey, PTree.dict (scopeToPtree ms.settings.startup [])),
       (runtimeGlobalKey, PTree.dict (scopeToPtree ms.settings.runtime_global [])),
       (runtimePerUserKey, PTree.dict (scopeToPtree ms.settings.runtime_per_user []))] := rfl

/-- Claim C1 counterexample: on the two-byte stream `[9, 0]` the decoder
does not return a typed `InvalidTypeTag` decode error — it hits the
`panic!` in `impl From<u8> for PropertyTreeType`, modelled as the
distinguished outcome `PError.panicInvalidTag 9`; in particular the
result is neither an `InvalidData` nor an `UnexpectedEof` error. -/
theorem c1_invalid_tag_counterexample :
    load_root [9, 0] = .error (.panicInvalidTag 9) ∧
    load_root [9, 0] ≠ .error .invalidData ∧
    load_root [9, 0] ≠ .error .eof :=
  ⟨rfl, fun h => PError.noConfusion (Except.error.inj h),
    fun h => PError.noConfusion (Except.error.inj h)⟩

/-- Claim C1 (amended): for every input byte stream whose first (type
tag) byte is outside `0..=7` (and which has the two header bytes the
decoder reads before converting the tag), decoding panics with that
byte's value — the modelled `panic!` outcome `PError.panicInvalidTag` —
rather than returning a typed decode error; it never returns normally,
so no default variant is silently substituted. -/
theorem c1_invalid_tag_panics (v a : Nat) (rest : List Nat) (h8 : 8 ≤ v)
    (h255 : v ≤ 255) :
    load_root (v :: a :: rest) = .error (.panicInvalidTag v) := by
  obtain ⟨n, rfl⟩ : ∃ n, v = n + 8 := ⟨v - 8, by omega⟩
  simp [load_root, load_ptree, read_u8,
    show propertyTreeTypeFromU8 (n + 8) = Option.none from rfl]

/-- Witness for C1 at tag byte 9. -/
theorem c1_invalid_tag_panics_witness :
    8 ≤ 9 ∧ 9 ≤ 255 ∧ load_root [9, 0, 3] = .error (.panicInvalidTag 9) :=
  ⟨by norm_num, by norm_num,
    c1_invalid_tag_panics 9 0 [3] (by norm_num) (by norm_num)⟩

/-- Claim C2 counterexample: for the dictionary tree with the empty-string
key (a value the Rust `HashMap` admits), decoding the encoder's own
output fails with the missing-dictionary-key `InvalidData` error instead
of reproducing the tree, so `decode(encode(t)) == t` does not hold for
every `PropertyTreeValue`. -/
theorem c2_roundtrip_counterexample :
    load_root (save_ptree (.dict [([], .nil)]) ++ []) = .error .invalidData ∧
    load_root (save_ptree (.dict [([], .nil)]) ++ []) ≠
      .ok (PTree.dict [([], .nil)], []) :=
  ⟨rfl, fun h => Except.noConfusion h⟩

/-- Claim C2 (amended): for every tree whose dictionary keys are all
nonempty — together with the representation invariants of the Rust types
(`wfT`: dictionary keys distinct, strings valid UTF-8, numeric bit
patterns within width, string/collection lengths below `2^32`) —
decoding the bytes produced by this component's own encoder reproduces
the tree exactly and leaves any following bytes as the remainder. -/
theorem c2_decode_encode_roundtrip (t : PTree) (rest : List Nat) (h : wfT t) :
    load_root (save_ptree t ++ rest) = .ok (t, rest) :=
  load_save t rest h

/-- Witness for C2 on a one-entry dictionary containing a string. -/
theorem c2_decode_encode_roundtrip_witness :
    wfT (.dict [([97], .str [104])]) ∧
    load_root (save_ptree (.dict [([97], .str [104])]) ++ [7]) =
      .ok (.dict [([97], .str [104])], [7]) := by
  have hwf : wfT (.dict [([97], .str [104])]) := by
    simp [wfT, wfE, wfStr, nodupKeys]
    exact ⟨rfl, rfl⟩
  exact ⟨hwf, c2_decode_encode_roundtrip _ [7] hwf⟩

/-- Claim C3: the two encoder variants in the source are not equal as
functions.  For every dictionary, the `core/settings.rs` encoder writes
the tag pair, the `u32` entry count and then immediately the entries,
while the `sanitize/.settings.rs` variant writes one extra `0x00` byte
between the count and the entries; on the empty dictionary their outputs
already differ (6 versus 7 bytes). -/
theorem c3_encoder_variants_differ :
    (∀ es : List (List Nat × PTree),
      save_ptree (.dict es) = 5 :: 0 :: (leBytes 4 es.length ++ saveDictEntries es) ∧
      sanitize_save_ptree (.dict es) =
        5 :: 0 :: (leBytes 4 es.length ++ 0 :: sanitizeSaveDictEntries es)) ∧
    save_ptree (.dict []) = [5, 0, 0, 0, 0, 0] ∧
    sanitize_save_ptree (.dict []) = [5, 0, 0, 0, 0, 0, 0] ∧
    save_ptree (.dict []) ≠ sanitize_save_ptree (.dict []) := by
  refine ⟨fun es => ⟨rfl, rfl⟩, rfl, rfl, ?_⟩
  intro h
  exact absurd (congrArg List.length h) (by decide)

/-- Claim C4: string codec exactness — encoding `""` yields exactly the
single byte `1`; encoding any non-empty string yields byte `0`, then the
packed length of its byte length, then the bytes; and decoding any
non-zero flag byte yields the empty string leaving the remaining bytes
untouched. -/
theorem c4_string_codec_exact :
    save_string [] = [1] ∧
    (∀ s : List Nat, s ≠ [] →
      save_string s = 0 :: (write_packed_uint_8_32 s.length ++ s)) ∧
    (∀ (flag : Nat) (rest : List Nat), flag ≠ 0 →
      read_ptree_string (flag :: rest) = .ok ([], rest)) := by
  refine ⟨rfl, ?_, ?_⟩
  · intro s hs
    unfold save_string write_packed_uint_8_32
    rw [if_neg hs]
    by_cases h255 : s.length < 255
    · rw [if_pos h255, if_pos h255]
      rfl
    · rw [if_neg h255, if_neg h255]
      rfl
  · intro flag rest hflag
    unfold read_ptree_string
    simp only [read_u8]
    rw [if_pos (by simpa using hflag)]

/-- Witness for C4 on the one-byte string `"h"` and flag byte 7. -/
theorem c4_string_codec_exact_witness :
    ([104] : List Nat) ≠ [] ∧ (7 : Nat) ≠ 0 ∧
    save_string [104] = 0 :: (write_packed_uint_8_32 1 ++ [104]) ∧
    read_ptree_string (7 :: [1, 2]) = .ok ([], [1, 2]) := by
  refine ⟨by simp, by norm_num, ?_, c4_string_codec_exact.2.2 7 [1, 2] (by norm_num)⟩
  have h := c4_string_codec_exact.2.1 [104] (by simp)
  simpa using h

/-- Claim C5: packed unsigned integer codec — values `0..=254` encode as
exactly the one byte equal to the value, values `255 ≤ n < 2^32` encode
as the byte `255` followed by the 4-byte little-endian value, and
`read_packed_uint_8_32` decodes both forms back to the original value,
leaving the remaining bytes untouched. -/
theorem c5_packed_uint_codec (n : Nat) (h : n < 2^32) :
    (n ≤ 254 → write_packed_uint_8_32 n = [n]) ∧
    (255 ≤ n → write_packed_uint_8_32 n = 255 :: leBytes 4 n) ∧
    (∀ rest, read_packed_uint_8_32 (write_packed_uint_8_32 n ++ rest) = .ok (n, rest)) := by
  refine ⟨?_, ?_, fun rest => read_packed_roundtrip n rest h⟩
  · intro h254
    unfold write_packed_uint_8_32
    rw [if_pos (by omega)]
  · intro h255
    unfold write_packed_uint_8_32
    rw [if_neg (by omega)]

/-- Witness for C5 at the values 3 and 300. -/
theorem c5_packed_uint_codec_witness :
    write_packed_uint_8_32 3 = [3] ∧
    write_packed_uint_8_32 300 = 255 :: leBytes 4 300 ∧
    read_packed_uint_8_32 (write_packed_uint_8_32 300 ++ [9]) = .ok (300, [9]) :=
  ⟨(c5_packed_uint_codec 3 (by norm_num)).1 (by norm_num),
   (c5_packed_uint_codec 300 (by norm_num)).2.1 (by norm_num),
   (c5_packed_uint_codec 300 (by norm_num)).2.2 [9]⟩

/-- Claim C6: `set(s, k, Some v)` inserts or overwrites the entry for `k`
in scope `s` (a subsequent lookup finds `v`) and returns the previous
value for `k` if one existed (`none` otherwise); `set(s, k, None)`
removes the entry and returns the removed value if one existed (`none`
otherwise) — under the `HashMap` invariant that the scope's keys are
distinct, the key is afterwards absent. -/
theorem c6_set_upsert_delete (ms : ModSettings) (s : ModSettingsScopeName)
    (k : List Nat) (v : ModSettingsValue) :
    (ms.set s k (some v)).1 = hmGet k (ms.settings.scope_ref s) ∧
    hmGet k (((ms.set s k (some v)).2).settings.scope_ref s) = some v ∧
    (ms.set s k Option.none).1 = hmGet k (ms.settings.scope_ref s) ∧
    (nodupKeys (ms.settings.scope_ref s) →
      hmGet k (((ms.set s k Option.none).2).settings.scope_ref s) = Option.none) := by
  refine ⟨?_, ?_, ?_, ?_⟩
  · exact hmInsert_fst k v (ms.settings.scope_ref s)
  · rw [set_some_scope]
    exact hmGet_hmInsert_self k v (ms.settings.scope_ref s)
  · exact hmRemove_fst k (ms.settings.scope_ref s)
  · intro hnd
    rw [set_none_scope]
    exact hmGet_hmRemove_self k (ms.settings.scope_ref s) hnd

/-- Witness for C6 on the one-entry state `wMS`. -/
theorem c6_set_upsert_delete_witness :
    (wMS.set .startup [107] (some (.int 3))).1 = some (.bool true) ∧
    hmGet [107] (((wMS.set .startup [107] (some (.int 3))).2).settings.scope_ref .startup)
      = some (.int 3) ∧
    (wMS.set .startup [107] Option.none).1 = some (.bool true) ∧
    hmGet [107] (((wMS.set .startup [107] Option.none).2).settings.scope_ref .startup)
      = Option.none := by
  have h := c6_set_upsert_delete wMS .startup [107] (.int 3)
  refine ⟨?_, h.2.1, ?_, h.2.2.2 (by unfold nodupKeys; decide)⟩
  · rw [h.1]; rfl
  · rw [h.2.2.1]; rfl

/-- Claim C7: deleting an existing key `k` from scope `s` removes exactly
that entry — `k` is afterwards absent from scope `s` (every remaining
entry has a different key and lookup of `k` finds nothing), every other
key of scope `s` is unchanged, and the two other scope mappings are
entirely unchanged.  `nodupKeys` is the `HashMap` invariant that keys
within the scope are distinct. -/
theorem c7_set_none_frame (ms : ModSettings) (s : ModSettingsScopeName) (k : List Nat)
    (hnd : nodupKeys (ms.settings.scope_ref s))
    (hex : (hmGet k (ms.settings.scope_ref s)).isSome = true) :
    hmGet k (((ms.set s k Option.none).2).settings.scope_ref s) = Option.none ∧
    (∀ p ∈ ((ms.set s k Option.none).2).settings.scope_ref s, p.1 ≠ k) ∧
    (∀ k2, k2 ≠ k → hmGet k2 (((ms.set s k Option.none).2).settings.scope_ref s)
      = hmGet k2 (ms.settings.scope_ref s)) ∧
    (∀ s2, s2 ≠ s → ((ms.set s k Option.none).2).settings.scope_ref s2
      = ms.settings.scope_ref s2) := by
  refine ⟨?_, ?_, ?_, ?_⟩
  · rw [set_none_scope]
    exact hmGet_hmRemove_self k _ hnd
  · rw [set_none_scope]
    exact hmRemove_no_key k _ hnd
  · intro k2 hk2
    rw [set_none_scope]
    exact hmGet_hmRemove_other k k2 hk2 _
  · intro s2 hs2
    exact set_none_scope_other ms s s2 k hs2

/-- Witness for C7 on the one-entry state `wMS`. -/
theorem c7_set_none_frame_witness :
    nodupKeys (wMS.settings.scope_ref .startup) ∧
    (hmGet [107] (wMS.settings.scope_ref .startup)).isSome = true ∧
    hmGet [107] (((wMS.set .startup [107] Option.none).2).settings.scope_ref .startup)
      = Option.none ∧
    ((wMS.set .startup [107] Option.none).2).settings.scope_ref .runtimeGlobal
      = wMS.settings.scope_ref .runtimeGlobal := by
  have hnd : nodupKeys (wMS.settings.scope_ref .startup) := by unfold nodupKeys; decide
  have h := c7_set_none_frame wMS .startup [107] hnd (by decide)
  exact ⟨hnd, by decide, h.1, h.2.2.2 .runtimeGlobal (by decide)⟩

/-- Claim C8: for every input byte stream a `ModSettings` is successfully
loaded from, the first 9 bytes (the `MapVersion` blob) are re-emitted
unchanged as the first 9 bytes of `save_bytes`, regardless of any
sequence of `set` mutations performed in between. -/
theorem c8_map_version_preserved (b : List Nat) (ms : ModSettings)
    (ops : List (ModSettingsScopeName × List Nat × Option ModSettingsValue))
    (h : ModSettings.from_reader b = .ok ms) :
    ((applySets ops ms).save_bytes).take 9 = b.take 9 := by
  obtain ⟨hv, h9⟩ := from_reader_shape h
  have hvers : (applySets ops ms).version = b.take 9 := by
    rw [applySets_version, hv]
  have hlen : ((applySets ops ms).version).length = 9 := by
    rw [hvers, List.length_take]
    omega
  unfold ModSettings.save_bytes
  rw [List.take_left' hlen, hvers]

/-- Witness for C8: load the concrete file `wFile`, mutate a startup
setting, and compare the first 9 bytes of the re-encoded output. -/
theorem c8_map_version_preserved_witness :
    ModSettings.from_reader wFile = .ok wFileMS ∧
    ((applySets [(.startup, [107], some (.int 3600))] wFileMS).save_bytes).take 9 =
      wFile.take 9 :=
  ⟨rfl, c8_map_version_preserved wFile wFileMS [(.startup, [107], some (.int 3600))] rfl⟩

/-- Claim C9: truncation safety of the cursor primitives — `read_u8` and
each fixed-width little-endian read either consumes exactly the declared
number of bytes (returning the rest of the stream untouched) or, when
the input is shorter than the declared width, returns the `UnexpectedEof`
error; and a stream holding a valid `Number` tag pair followed by only 7
of the 8 payload bytes decodes to `UnexpectedEof`, not a value. -/
theorem c9_cursor_truncation_safe :
    (∀ (x : Nat) (r : List Nat), read_u8 (x :: r) = .ok (x, r)) ∧
    read_u8 [] = .error .eof ∧
    (∀ b : List Nat, 4 ≤ b.length →
      read_u32_le b = .ok (fromLE (b.take 4), b.drop 4)) ∧
    (∀ b : List Nat, b.length < 4 → read_u32_le b = .error .eof) ∧
    (∀ b : List Nat, 8 ≤ b.length →
      read_i64_le b = .ok (fromLE (b.take 8), b.drop 8) ∧
      read_u64_le b = .ok (fromLE (b.take 8), b.drop 8) ∧
      read_f64_le b = .ok (fromLE (b.take 8), b.drop 8)) ∧
    (∀ b : List Nat, b.length < 8 →
      read_i64_le b = .error .eof ∧ read_u64_le b = .error .eof ∧
      read_f64_le b = .error .eof) ∧
    (∀ (x : Nat) (s7 : List Nat), s7.length = 7 →
      load_root (2 :: x :: s7) = .error .eof) := by
  have hok : ∀ (w : Nat) (b : List Nat), w ≤ b.length →
      readExact w b = .ok (b.take w, b.drop w) := by
    intro w b h
    unfold readExact
    rw [if_pos h]
  have herr : ∀ (w : Nat) (b : List Nat), b.length < w →
      readExact w b = .error .eof := by
    intro w b h
    unfold readExact
    rw [if_neg (by omega)]
  refine ⟨fun x r => rfl, rfl, ?_, ?_, ?_, ?_, ?_⟩
  · intro b h
    unfold read_u32_le
    rw [hok 4 b h]
  · intro b h
    unfold read_u32_le
    rw [herr 4 b h]
  · intro b h
    refine ⟨?_, ?_, ?_⟩ <;>
      first
      | (unfold read_i64_le; rw [hok 8 b h])
      | (unfold read_u64_le; rw [hok 8 b h])
      | (unfold read_f64_le; rw [hok 8 b h])
  · intro b h
    refine ⟨?_, ?_, ?_⟩ <;>
      first
      | (unfold read_i64_le; rw [herr 8 b h])
      | (unfold read_u64_le; rw [herr 8 b h])
      | (unfold read_f64_le; rw [herr 8 b h])
  · intro x s7 h7
    have hx : read_f64_le s7 = .error .eof := by
      unfold read_f64_le
      rw [herr 8 s7 (by omega)]
    simp [load_root, load_ptree, read_u8, propertyTreeTypeFromU8, hx]

/-- Witness for C9 at concrete short and exact-length streams. -/
theorem c9_cursor_truncation_safe_witness :
    read_u32_le [1, 2] = .error .eof ∧
    read_u32_le [1, 2, 3, 4, 9] = .ok (fromLE [1, 2, 3, 4], [9]) ∧
    load_root [2, 0, 1, 2, 3, 4, 5, 6, 7] = .error .eof := by
  refine ⟨c9_cursor_truncation_safe.2.2.2.1 [1, 2] (by norm_num), ?_, ?_⟩
  · have h := c9_cursor_truncation_safe.2.2.1 [1, 2, 3, 4, 9] (by norm_num)
    simpa using h
  · exact c9_cursor_truncation_safe.2.2.2.2.2.2 0 [1, 2, 3, 4, 5, 6, 7] (by norm_num)

/-- Claim C10: the loader reads the decoded root dictionary only through
the three fixed scope keys (so root entries beyond them cannot affect the
result), reads each per-setting wrapper dictionary only through the key
`"value"` (so extra wrapper keys cannot affect the result), and the saver
emits a root holding exactly the three scope entries, every setting
wrapped as the single-entry dictionary `{"value": …}` — hence load
succeeds ignoring such extras and a subsequent save emits a file without
them. -/
theorem c10_extra_entries_ignored :
    (∀ d1 d2 : List (List Nat × PTree),
      hmGet startupKey d1 = hmGet startupKey d2 →
      hmGet runtimeGlobalKey d1 = hmGet runtimeGlobalKey d2 →
      hmGet runtimePerUserKey d1 = hmGet runtimePerUserKey d2 →
      parseRoot d1 = parseRoot d2) ∧
    (∀ (k : List Nat) (w1 w2 rest : List (List Nat × PTree)) (acc : ModSettingsScope),
      hmGet valueKey w1 = hmGet valueKey w2 →
      parseScopeEntries ((k, .dict w1) :: rest) acc =
        parseScopeEntries ((k, .dict w2) :: rest) acc) ∧
    (∀ ms : ModSettings,
      ms.to_ptree = PTree.dict
        [(startupKey, PTree.dict (scopeToPtree ms.settings.startup [])),
         (runtimeGlobalKey, PTree.dict (scopeToPtree ms.settings.runtime_global [])),
         (runtimePerUserKey, PTree.dict (scopeToPtree ms.settings.runtime_per_user []))] ∧
      (∀ p ∈ scopeToPtree ms.settings.startup [] ++
             scopeToPtree ms.settings.runtime_global [] ++
             scopeToPtree ms.settings.runtime_per_user [],
        ∃ w, p.2 = PTree.dict [(valueKey, w)])) := by
  refine ⟨fun d1 d2 h1 h2 h3 => parseRoot_congr h1 h2 h3,
    fun k w1 w2 rest acc h => parseScopeEntries_wrapper_congr k w1 w2 rest acc h,
    fun ms => ⟨to_ptree_struct ms, ?_⟩⟩
  intro p hp
  rcases List.mem_append.mp hp with hp2 | hp2
  · rcases List.mem_append.mp hp2 with hp3 | hp3
    · exact scopeToPtree_wrapper _ [] (by simp) p hp3
    · exact scopeToPtree_wrapper _ [] (by simp) p hp3
  · exact scopeToPtree_wrapper _ [] (by simp) p hp2

/-- Witness for C10: a root with an extra entry under the key `"x"`
(byte 120) parses to the same result as the clean root, and a wrapper
with an extra key besides `"value"` parses to the same scope. -/
theorem c10_extra_entries_ignored_witness :
    parseRoot (wCleanRoot ++ [([120], PTree.str [104])]) = parseRoot wCleanRoot ∧
    parseScopeEntries [([107], PTree.dict [(valueKey, PTree.bool true), ([120], PTree.nil)])] [] =
      parseScopeEntries [([107], PTree.dict [(valueKey, PTree.bool true)])] [] := by
  constructor
  · exact c10_extra_entries_ignored.1 (wCleanRoot ++ [([120], PTree.str [104])]) wCleanRoot
      rfl rfl rfl
  · exact c10_extra_entries_ignored.2.1 [107]
      [(valueKey, PTree.bool true), ([120], PTree.nil)] [(valueKey, PTree.bool true)] [] [] rfl

end Belt
